import Mathlib

/-!
Verification of the `uq` united-queue engine against its specification.

The key/value store is modelled as an association list of string keys to
typed values (the typed `Val` abstracts the byte encodings: gob catalogs,
little-endian u64 anchors, duration strings).  Write/delete fallibility is
injected through a `failW` set of keys whose mutations fail, mirroring a KV
backend that can return errors.  Stateful Go methods become functions from
(state, store) to (error option, state, store), so states mutated before a
failure are kept, exactly as in the Go code where mutations are in place.
-/

namespace UQ

/-- 2^64: `head`/`tail` are Go `uint64`; increments wrap at this modulus. -/
def UMOD : Nat := 18446744073709551616

/-- Values held by the key/value store, abstracting the byte encodings used
by the Go code (gob for catalogs and line snapshots, little-endian u64 for
anchors, `time.Duration.String` for recycle durations, raw bytes for
payloads). -/
inductive Val where
  | payload (data : List Nat)
  | anchor (n : Nat)
  | topicCat (lines : List String)
  | queueCat (topics : List String)
  | dur (d : Int)
  | lineSnap (head ihead : Nat) (inflights : List (Nat × Int))
  deriving Repr, DecidableEq

/-- Error kinds produced by the engine (`utils.NewError` codes). -/
inductive Err where
  | badKey
  | badRequest
  | topicExisted
  | topicNotExisted
  | lineExisted
  | lineNotExisted
  | notFound
  | internal
  | noMsg
  deriving Repr, DecidableEq

/-- The key/value store: an association list of entries plus the set of keys
whose writes/deletes fail (failure injection for the fallible backend). -/
structure Store where
  entries : List (String × Val)
  failW : List String
  deriving Repr, DecidableEq

def Store.get (s : Store) (k : String) : Option Val :=
  s.entries.lookup k

def Store.set (s : Store) (k : String) (v : Val) : Option Store :=
  if k ∈ s.failW then none
  else some ⟨(k, v) :: s.entries.filter (fun p => p.1 ≠ k), s.failW⟩

def Store.del (s : Store) (k : String) : Option Store :=
  if k ∈ s.failW then none
  else some ⟨s.entries.filter (fun p => p.1 ≠ k), s.failW⟩

/-- `UnitedQueue.setData`: wraps a KV `Set`, surfacing failure as
`Internal`. -/
def setData (s : Store) (k : String) (v : Val) : Except Err Store :=
  match s.set k v with
  | some s2 => .ok s2
  | none => .error .internal

/-- `UnitedQueue.getData`: wraps a KV `Get`; absence is the error case. -/
def getData (s : Store) (k : String) : Except Err Val :=
  match s.get k with
  | some v => .ok v
  | none => .error .internal

/-- `UnitedQueue.delData`: wraps a KV `Del`, surfacing failure as
`Internal`. -/
def delData (s : Store) (k : String) : Except Err Store :=
  match s.del k with
  | some s2 => .ok s2
  | none => .error .internal

/-- `utils.Acatui`: concatenates a string, a separator and a decimal
unsigned integer, e.g. the message key `"{topic}:{id}"`. -/
def acatui (name sep : String) (n : Nat) : String :=
  name ++ sep ++ toString n

/-- One consumer line: cursor `head`, confirm frontier `ihead`, recycle
duration (nanoseconds, as Go `time.Duration`), the in-flight queue of
`(tid, expire)` records and the `imap` membership map. -/
structure Line where
  name : String
  head : Nat
  ihead : Nat
  recycle : Int
  inflight : List (Nat × Int)
  imap : List (Nat × Bool)
  deriving Repr, DecidableEq

/-- A topic: its message log is `[head, tail)`, payload of id `i` at key
`"{name}:{i}"`; `lines` maps line names to lines. -/
structure Topic where
  name : String
  lines : List (String × Line)
  head : Nat
  headKey : String
  tail : Nat
  tailKey : String
  deriving Repr, DecidableEq

/-- `topic.push`: persist the payload at `"{topic}:{tail}"`, increment
`tail` (u64 wrap), persist the tail anchor; on anchor failure decrement
`tail` back (Go `t.tail--`, modelled with u64 wrap-around). -/
def Topic.push (t : Topic) (s : Store) (data : List Nat) :
    Option Err × Topic × Store :=
  match setData s (acatui t.name ":" t.tail) (.payload data) with
  | .error e => (some e, t, s)
  | .ok s1 =>
    let t1 : Topic := { t with tail := (t.tail + 1) % UMOD }
    match setData s1 t1.tailKey (.anchor t1.tail) with
    | .error e => (some e, { t1 with tail := (t1.tail + (UMOD - 1)) % UMOD }, s1)
    | .ok s2 => (none, t1, s2)

/-- The per-payload loop of `topic.mPush`: reject an empty payload with
`BadRequest` (leaving `tail` as already advanced), restore `tail` to
`oldTail` on a KV write error, otherwise write and advance. -/
def mPushLoop (name : String) (oldTail : Nat) :
    Nat → Store → List (List Nat) → Option Err × Nat × Store
  | tail, s, [] => (none, tail, s)
  | tail, s, d :: ds =>
    if d.length = 0 then (some .badRequest, tail, s)
    else
      match setData s (acatui name ":" tail) (.payload d) with
      | .error e => (some e, oldTail, s)
      | .ok s1 => mPushLoop name oldTail ((tail + 1) % UMOD) s1 ds

/-- `topic.mPush`: run the per-payload loop, then persist the tail anchor
once; on anchor failure restore `tail` to the pre-batch value. -/
def Topic.mPush (t : Topic) (s : Store) (datas : List (List Nat)) :
    Option Err × Topic × Store :=
  let oldTail := t.tail
  match mPushLoop t.name oldTail t.tail s datas with
  | (some e, tailF, sF) => (some e, { t with tail := tailF }, sF)
  | (none, tailF, sF) =>
    let t1 : Topic := { t with tail := tailF }
    match setData sF t1.tailKey (.anchor tailF) with
    | .error e => (some e, { t1 with tail := oldTail }, sF)
    | .ok s2 => (none, t1, s2)

/-- `topic.getEnd`: the reclamation bound of the clean pass. -/
def Topic.getEnd (t : Topic) : Nat :=
  if t.lines.length = 0 then t.head
  else
    t.lines.foldl
      (fun e p =>
        if p.2.recycle > 0 then (if p.2.ihead < e then p.2.ihead else e)
        else (if p.2.head < e then p.2.head else e))
      t.tail

/-- The reclamation bound in the spec's words: if there are no lines the
bound is `head`; otherwise the minimum over lines of (`ihead` if
`recycle > 0` else `head`), capped by the topic's `tail`. -/
def specEnd (t : Topic) : Nat :=
  if t.lines = [] then t.head
  else
    (t.lines.map (fun p => if p.2.recycle > 0 then p.2.ihead else p.2.head)).foldr
      min t.tail

/-- The loop body of `topic.clean`: while `head < ending`, check the quit
channel, then the deadline, then delete `"{topic}:{head}"`, increment
`head` and persist the new head anchor; return on quit, deadline or any KV
error.  The quit channel and the clock are modelled as oracles indexed by
the iteration number.  The `fuel` argument is the loop bound
`ending - head`, which makes the recursion structural; it is kept in
lockstep with `head`, so the fuel-exhausted case coincides with the loop
exit `head ≥ ending`. -/
def cleanLoop (name headKey : String) (ending : Nat)
    (quitAt timeoutAt : Nat → Bool) :
    Nat → Nat → Nat → Store → Bool × Nat × Store
  | 0, _, head, s => (false, head, s)
  | fuel + 1, i, head, s =>
    if head < ending then
      if quitAt i then (true, head, s)
      else if timeoutAt i then (false, head, s)
      else
        match delData s (acatui name ":" head) with
        | .error _ => (false, head, s)
        | .ok s1 =>
          match setData s1 headKey (.anchor (head + 1)) with
          | .error _ => (false, head + 1, s1)
          | .ok s2 =>
            cleanLoop name headKey ending quitAt timeoutAt fuel (i + 1) (head + 1) s2
    else (false, head, s)

/-- `topic.clean`: one bounded reclamation pass, deleting message keys from
`head` up to (at most) `getEnd`. -/
def Topic.clean (t : Topic) (s : Store) (quitAt timeoutAt : Nat → Bool) :
    Bool × Topic × Store :=
  let ending := t.getEnd
  let r := cleanLoop t.name t.headKey ending quitAt timeoutAt
    (ending - t.head) 0 t.head s
  (r.1, { t with head := r.2.1 }, r.2.2)

/-- Modelled from the spec: `line.empty` (source file `line.go` is not part
of the provided sources) sets `ihead = head`, clears `inflight` and `imap`
(§4.3), and persists the line snapshot at `"{topic}/{line}"` (§4.6),
surfacing a KV failure. -/
def lineEmpty (tname : String) (l : Line) (s : Store) :
    Option Err × Line × Store :=
  let l1 : Line := { l with ihead := l.head, inflight := [], imap := [] }
  match setData s (tname ++ "/" ++ l.name) (.lineSnap l1.head l1.ihead []) with
  | .error e => (some e, l1, s)
  | .ok s1 => (none, l1, s1)

/-- The per-line loop of `topic.empty`: empty each line in turn, stopping
at the first error (lines already emptied keep their new state, as the Go
code mutates them in place). -/
def emptyLines (tname : String) :
    List (String × Line) → Store → Option Err × List (String × Line) × Store
  | [], s => (none, [], s)
  | (n, l) :: rest, s =>
    match lineEmpty tname l s with
    | (some e, l1, s1) => (some e, (n, l1) :: rest, s1)
    | (none, l1, s1) =>
      match emptyLines tname rest s1 with
      | (e2, rest2, s2) => (e2, (n, l1) :: rest2, s2)

/-- `topic.empty`: empty every line, then set `head = tail` and persist the
head anchor (the tail anchor is not rewritten; on a head-anchor failure the
in-memory `head` keeps the new value, as in the Go code). -/
def Topic.empty (t : Topic) (s : Store) : Option Err × Topic × Store :=
  match emptyLines t.name t.lines s with
  | (some e, ls, s1) => (some e, { t with lines := ls }, s1)
  | (none, ls, s1) =>
    let t1 : Topic := { t with lines := ls, head := t.tail }
    match setData s1 t1.headKey (.anchor t.tail) with
    | .error e => (some e, t1, s1)
    | .ok s2 => (none, t1, s2)

/-- Go map assignment `m[k] = b` on the `imap` association list. -/
def imapSet (m : List (Nat × Bool)) (k : Nat) (b : Bool) : List (Nat × Bool) :=
  (k, b) :: m.filter (fun p => p.1 ≠ k)

/-- `topic.newLine`: build a fresh line starting at the topic's current
head with empty in-flight state, then persist it.  The persistence calls
`line.exportLine` / `line.exportRecycle` live in the missing `line.go`;
they are modelled from the spec: the snapshot goes to `"{topic}/{line}"`
and the duration to `"{topic}/{line}:recycle"` (§4.6). -/
def Topic.newLine (t : Topic) (name : String) (recycle : Int) (s : Store) :
    Except Err (Line × Store) :=
  let l : Line := { name := name, head := t.head, ihead := t.head,
                    recycle := recycle, inflight := [], imap := [] }
  match setData s (t.name ++ "/" ++ name) (.lineSnap l.head l.ihead []) with
  | .error e => .error e
  | .ok s1 =>
    match setData s1 (t.name ++ "/" ++ name ++ ":recycle") (.dur recycle) with
    | .error e => .error e
    | .ok s2 => .ok (l, s2)

/-- `topic.exportTopic`: persist the topic catalog (its line names) at key
`"{topic}"`. -/
def Topic.exportTopic (t : Topic) (s : Store) : Except Err Store :=
  setData s t.name (.topicCat (t.lines.map (fun p => p.2.name)))

/-- `topic.createLine`: reject duplicates, build and persist the new line,
add it to the map and persist the catalog; on catalog failure the line is
removed again.  (The coordinator registration is best-effort and carries no
queue state.) -/
def Topic.createLine (t : Topic) (name : String) (recycle : Int) (s : Store) :
    Option Err × Topic × Store :=
  if (t.lines.lookup name).isSome then (some .lineExisted, t, s)
  else
    match t.newLine name recycle s with
    | .error e => (some e, t, s)
    | .ok (l, s1) =>
      let t1 : Topic := { t with lines := t.lines ++ [(name, l)] }
      match t1.exportTopic s1 with
      | .error e => (some e, t, s1)
      | .ok s2 => (none, t1, s2)

/-- Modelled from the spec: `line.pop` (in the missing `line.go`), §4.2.
First the recycle sweep redelivers an expired in-flight record when
`recycle > 0`; otherwise a fresh message at `head` is fetched (auto-ack
when `recycle` is zero, in-flight tracking when positive). -/
def Line.pop (l : Line) (now : Int) (tname : String) (ttail : Nat) (s : Store) :
    Option Err × Line × Option (Nat × List Nat) :=
  let fresh : Option Err × Line × Option (Nat × List Nat) :=
    if l.head = ttail then (some .noMsg, l, none)
    else
      match getData s (acatui tname ":" l.head) with
      | .error e => (some e, l, none)
      | .ok (.payload p) =>
        if l.recycle > 0 then
          (none,
           { l with inflight := l.inflight ++ [(l.head, now + l.recycle)],
                    imap := imapSet l.imap l.head true,
                    head := l.head + 1 },
           some (l.head, p))
        else
          (none, { l with head := l.head + 1, ihead := l.head + 1 },
           some (l.head, p))
      | .ok _ => (some .internal, l, none)
  match l.inflight with
  | (tid, exp) :: rest =>
    if l.recycle > 0 ∧ exp ≤ now then
      match getData s (acatui tname ":" tid) with
      | .error e => (some e, l, none)
      | .ok (.payload p) =>
        (none, { l with inflight := rest ++ [(tid, now + l.recycle)] },
         some (tid, p))
      | .ok _ => (some .internal, l, none)
    else fresh
  | [] => fresh

/-- Modelled from the spec: `line.mPop` repeats `pop` up to `n` times,
stops on empty or error, and returns whatever it accumulated (partial
success is success). -/
def Line.mPop (l : Line) (now : Int) (tname : String) (ttail : Nat) (s : Store) :
    Nat → Option Err × Line × List (Nat × List Nat)
  | 0 => (none, l, [])
  | Nat.succ k =>
    match l.pop now tname ttail s with
    | (some e, l1, _) => (some e, l1, [])
    | (none, l1, some r) =>
      match l1.mPop now tname ttail s k with
      | (_, l2, rs) => (none, l2, r :: rs)
    | (none, l1, none) => (none, l1, [])

/-- Modelled from the spec: the `ihead` sweep of `line.confirm` (§4.3):
while `ihead < head` and `imap[ihead] == false`, erase `imap[ihead]` and
increment `ihead`.  The `fuel` argument is the loop bound `head - ihead`,
making the recursion structural. -/
def sweepIhead : Nat → List (Nat × Bool) → Nat → Nat → List (Nat × Bool) × Nat
  | 0, imap, ihead, _ => (imap, ihead)
  | fuel + 1, imap, ihead, head =>
    if ihead < head then
      if imap.lookup ihead = some false then
        sweepIhead fuel (imap.filter (fun p => p.1 ≠ ihead)) (ihead + 1) head
      else (imap, ihead)
    else (imap, ihead)

/-- Modelled from the spec: `line.confirm` (§4.3): range check, remove the
record from `inflight`, mark `imap[id] = false`, then sweep `ihead`. -/
def Line.confirm (l : Line) (id : Nat) : Option Err × Line :=
  if id < l.ihead ∨ l.head ≤ id then (some .notFound, l)
  else if l.inflight.all (fun p => p.1 ≠ id) then (some .notFound, l)
  else
    let imap1 := imapSet l.imap id false
    let r := sweepIhead (l.head - l.ihead) imap1 l.ihead l.head
    (none, { l with inflight := l.inflight.filter (fun p => p.1 ≠ id),
                    imap := r.1, ihead := r.2 })

/-- Replace the entry for `name` in an association list of topics. -/
def updTopics (ts : List (String × Topic)) (name : String) (t : Topic) :
    List (String × Topic) :=
  ts.map (fun p => if p.1 = name then (p.1, t) else p)

/-- Replace the entry for `name` in an association list of lines. -/
def updLines (ls : List (String × Line)) (name : String) (l : Line) :
    List (String × Line) :=
  ls.map (fun p => if p.1 = name then (p.1, l) else p)

/-- `topic.pop`: look the line up and delegate. -/
def Topic.pop (t : Topic) (name : String) (now : Int) (s : Store) :
    Option Err × Topic × Option (Nat × List Nat) :=
  match t.lines.lookup name with
  | none => (some .lineNotExisted, t, none)
  | some l =>
    match l.pop now t.name t.tail s with
    | (e, l1, r) => (e, { t with lines := updLines t.lines name l1 }, r)

/-- `topic.mPop`: look the line up and delegate. -/
def Topic.mPop (t : Topic) (name : String) (n : Nat) (now : Int) (s : Store) :
    Option Err × Topic × List (Nat × List Nat) :=
  match t.lines.lookup name with
  | none => (some .lineNotExisted, t, [])
  | some l =>
    match l.mPop now t.name t.tail s n with
    | (e, l1, rs) => (e, { t with lines := updLines t.lines name l1 }, rs)

/-- `topic.confirm`: look the line up and delegate. -/
def Topic.confirm (t : Topic) (name : String) (id : Nat) :
    Option Err × Topic :=
  match t.lines.lookup name with
  | none => (some .lineNotExisted, t)
  | some l =>
    match l.confirm id with
    | (e, l1) => (e, { t with lines := updLines t.lines name l1 })

/-- The broker: the registry of topics (the etcd client carries no queue
state and is omitted). -/
structure UnitedQueue where
  topics : List (String × Topic)
  deriving Repr, DecidableEq

/-- A create/empty request: topic name, optional line name, recycle. -/
structure QueueRequest where
  topicName : String
  lineName : String
  recycle : Int
  deriving Repr, DecidableEq

def StorageKeyWord : String := "UnitedQueueKey"

/-- `UnitedQueue.newTopic`: a fresh topic with `head = tail = 0` and its
anchors persisted. -/
def newTopic (name : String) (s : Store) : Except Err (Topic × Store) :=
  let t : Topic := { name := name, lines := [], head := 0,
                     headKey := name ++ ":head", tail := 0,
                     tailKey := name ++ ":tail" }
  match setData s t.headKey (.anchor t.head) with
  | .error e => .error e
  | .ok s1 =>
    match setData s1 t.tailKey (.anchor t.tail) with
    | .error e => .error e
    | .ok s2 => .ok (t, s2)

/-- `UnitedQueue.exportQueue`: persist the broker catalog (topic names). -/
def exportQueue (u : UnitedQueue) (s : Store) : Except Err Store :=
  setData s StorageKeyWord (.queueCat (u.topics.map (fun p => p.1)))

/-- `UnitedQueue.createTopic`: reject duplicates, build and persist the
topic, add it to the registry and persist the broker catalog; on catalog
failure the topic is removed again. -/
def UnitedQueue.createTopic (u : UnitedQueue) (name : String) (s : Store) :
    Option Err × UnitedQueue × Store :=
  if (u.topics.lookup name).isSome then (some .topicExisted, u, s)
  else
    match newTopic name s with
    | .error e => (some e, u, s)
    | .ok (t, s1) =>
      let u1 : UnitedQueue := ⟨u.topics ++ [(name, t)]⟩
      match exportQueue u1 s1 with
      | .error e => (some e, u, s1)
      | .ok s2 => (none, u1, s2)

/-- `UnitedQueue.Create`: an empty topic name fails with `BadKey`; with a
line name the request creates a line on an existing topic, otherwise a
topic. -/
def UnitedQueue.Create (u : UnitedQueue) (qr : QueueRequest) (s : Store) :
    Option Err × UnitedQueue × Store :=
  if qr.topicName = "" then (some .badKey, u, s)
  else if qr.lineName ≠ "" then
    match u.topics.lookup qr.topicName with
    | none => (some .topicNotExisted, u, s)
    | some t =>
      match t.createLine qr.lineName qr.recycle s with
      | (e, t1, s1) => (e, ⟨updTopics u.topics qr.topicName t1⟩, s1)
  else
    u.createTopic qr.topicName s

/-- Go `strings.Split` with a one-character separator, structurally over
the character list: the split of the remaining characters is prefixed by
the accumulated current field (kept reversed). -/
def splitSepAux (sep : Char) : List Char → List Char → List String
  | [], acc => [String.mk acc.reverse]
  | c :: cs, acc =>
    if c = sep then String.mk acc.reverse :: splitSepAux sep cs []
    else splitSepAux sep cs (c :: acc)

/-- Go `strings.Split(s, sep)` for a one-character `sep`: `""` yields
`[""]`, and `n` separators yield `n + 1` fields. -/
def splitSep (sep : Char) (s : String) : List String :=
  splitSepAux sep s.data []

/-- `UnitedQueue.Pop`: the key must split on `/` into exactly
`topic/line`. -/
def UnitedQueue.Pop (u : UnitedQueue) (key : String) (now : Int) (s : Store) :
    Option Err × UnitedQueue × Option (Nat × List Nat) :=
  match splitSep '/' key with
  | [tName, lName] =>
    match u.topics.lookup tName with
    | none => (some .topicNotExisted, u, none)
    | some t =>
      match t.pop lName now s with
      | (e, t1, r) => (e, ⟨updTopics u.topics tName t1⟩, r)
  | _ => (some .badKey, u, none)

/-- `UnitedQueue.MultiPop`: the key must split on `/` into exactly
`topic/line`. -/
def UnitedQueue.MultiPop (u : UnitedQueue) (key : String) (n : Nat)
    (now : Int) (s : Store) :
    Option Err × UnitedQueue × List (Nat × List Nat) :=
  match splitSep '/' key with
  | [tName, lName] =>
    match u.topics.lookup tName with
    | none => (some .topicNotExisted, u, [])
    | some t =>
      match t.mPop lName n now s with
      | (e, t1, rs) => (e, ⟨updTopics u.topics tName t1⟩, rs)
  | _ => (some .badKey, u, [])

/-- Go `strconv.ParseUint(s, 10, 0)`: a non-empty decimal digit string
whose value fits in a `uint` (64 bits). -/
def parseUint (str : String) : Option Nat :=
  if str.data.isEmpty then none
  else if str.data.all (fun c => c.isDigit) then
    if (str.data.foldl (fun acc c => acc * 10 + (c.toNat - 48)) 0) < UMOD
    then some (str.data.foldl (fun acc c => acc * 10 + (c.toNat - 48)) 0)
    else none
  else none

/-- `UnitedQueue.Confirm`: the key must split on `/` into exactly
`topic/line/id` with `id` an unsigned decimal. -/
def UnitedQueue.Confirm (u : UnitedQueue) (key : String) :
    Option Err × UnitedQueue :=
  match splitSep '/' key with
  | [tName, lName, idStr] =>
    match parseUint idStr with
    | none => (some .badKey, u)
    | some id =>
      match u.topics.lookup tName with
      | none => (some .topicNotExisted, u)
      | some t =>
        match t.confirm lName id with
        | (e, t1) => (e, ⟨updTopics u.topics tName t1⟩)
  | _ => (some .badKey, u)

/-- `topic.loadLine`: load the recycle duration (failure aborts the line),
rebuild `imap` as `false` on `[ihead, head)` then `true` for each decoded
in-flight record, and attach the records in order. -/
def loadLine (s : Store) (topicName lname : String)
    (snapHead snapIhead : Nat) (inflights : List (Nat × Int)) :
    Except Err Line :=
  match getData s (topicName ++ "/" ++ lname ++ ":recycle") with
  | .error e => .error e
  | .ok (.dur d) =>
    let imap0 := (List.range' snapIhead (snapHead - snapIhead)).map
      (fun i => (i, false))
    let imap1 := inflights.foldl (fun m p => imapSet m p.1 true) imap0
    .ok { name := lname, head := snapHead, ihead := snapIhead, recycle := d,
          inflight := inflights, imap := imap1 }
  | .ok _ => .error .internal

/-- The per-line loop of `UnitedQueue.loadTopic`: a line whose snapshot is
missing, undecodable, or whose `loadLine` fails is skipped. -/
def loadLines (s : Store) (topicName : String) :
    List String → List (String × Line)
  | [] => []
  | lname :: rest =>
    match s.get (topicName ++ "/" ++ lname) with
    | some (.lineSnap h ih infl) =>
      match loadLine s topicName lname h ih infl with
      | .ok l => (lname, l) :: loadLines s topicName rest
      | .error _ => loadLines s topicName rest
    | _ => loadLines s topicName rest

/-- `UnitedQueue.loadTopic`: the head and tail anchors must load (an
error aborts the topic); line failures are skipped. -/
def loadTopic (s : Store) (topicName : String) (lineNames : List String) :
    Except Err Topic :=
  match getData s (topicName ++ ":head") with
  | .error e => .error e
  | .ok (.anchor h) =>
    match getData s (topicName ++ ":tail") with
    | .error e => .error e
    | .ok (.anchor tl) =>
      .ok { name := topicName, lines := loadLines s topicName lineNames,
            head := h, headKey := topicName ++ ":head",
            tail := tl, tailKey := topicName ++ ":tail" }
    | .ok _ => .error .internal
  | .ok _ => .error .internal

/-- Loading one listed topic: its catalog must be present and decodable and
`loadTopic` must succeed; otherwise the topic yields nothing. -/
def loadOneTopic (s : Store) (n : String) : Option Topic :=
  match s.get n with
  | some (.topicCat ls) => (loadTopic s n ls).toOption
  | _ => none

/-- The per-topic loop of `UnitedQueue.loadQueue`: failures skip the topic
and continue with the rest. -/
def loadTopics (s : Store) : List String → List (String × Topic)
  | [] => []
  | n :: rest =>
    match loadOneTopic s n with
    | some t => (n, t) :: loadTopics s rest
    | none => loadTopics s rest

/-- `UnitedQueue.loadQueue`: an absent broker catalog means a fresh empty
state; an undecodable one loads nothing; otherwise the listed topics are
loaded one by one with per-topic skipping.  All paths return success. -/
def loadQueue (s : Store) : Except Err (List (String × Topic)) :=
  match s.get StorageKeyWord with
  | none => .ok []
  | some (.queueCat names) => .ok (loadTopics s names)
  | some _ => .ok []

/-! ### Store lemmas -/

theorem lookup_cons_self {β : Type} {v : β} {l : List (String × β)}
    (k : String) : ((k, v) :: l).lookup k = some v := by
  have hb : (k == k) = true := by simp
  simp [List.lookup, hb]

theorem lookup_cons_ne {β : Type} {v : β} {l : List (String × β)}
    {k k' : String} (h : k' ≠ k) : ((k, v) :: l).lookup k' = l.lookup k' := by
  have hb : (k' == k) = false := by simp [h]
  simp [List.lookup, hb]

theorem lookup_filter_ne {β : Type} (l : List (String × β)) (k k' : String)
    (h : k' ≠ k) :
    (l.filter (fun p => p.1 ≠ k)).lookup k' = l.lookup k' := by
  induction l with
  | nil => rfl
  | cons a l ih =>
    rcases a with ⟨a1, a2⟩
    by_cases ha : a1 = k
    · rw [List.filter_cons_of_neg (by simp [ha])]
      rw [lookup_cons_ne (by rw [ha]; exact h)]
      exact ih
    · rw [List.filter_cons_of_pos (by simp [ha])]
      by_cases hk : k' = a1
      · subst hk; rw [lookup_cons_self, lookup_cons_self]
      · rw [lookup_cons_ne hk, lookup_cons_ne hk]; exact ih

theorem lookup_filter_self {β : Type} (l : List (String × β)) (k : String) :
    (l.filter (fun p => p.1 ≠ k)).lookup k = none := by
  induction l with
  | nil => rfl
  | cons a l ih =>
    rcases a with ⟨a1, a2⟩
    by_cases ha : a1 = k
    · rw [List.filter_cons_of_neg (by simp [ha])]; exact ih
    · rw [List.filter_cons_of_pos (by simp [ha])]
      rw [lookup_cons_ne (fun hh => ha hh.symm)]; exact ih


theorem set_eq_some {s s' : Store} {k : String} {v : Val}
    (h : s.set k v = some s') :
    s' = ⟨(k, v) :: s.entries.filter (fun p => p.1 ≠ k), s.failW⟩ := by
  unfold Store.set at h
  split at h
  · cases h
  · exact (Option.some.inj h).symm

theorem del_eq_some {s s' : Store} {k : String}
    (h : s.del k = some s') :
    s' = ⟨s.entries.filter (fun p => p.1 ≠ k), s.failW⟩ := by
  unfold Store.del at h
  split at h
  · cases h
  · exact (Option.some.inj h).symm

theorem setData_ok {s s' : Store} {k : String} {v : Val}
    (h : setData s k v = .ok s') : s.set k v = some s' := by
  unfold setData at h
  split at h
  next s2 heq => cases h; exact heq
  next => cases h

theorem delData_ok {s s' : Store} {k : String}
    (h : delData s k = .ok s') : s.del k = some s' := by
  unfold delData at h
  split at h
  next s2 heq => cases h; exact heq
  next => cases h

theorem setData_get_self {s s' : Store} {k : String} {v : Val}
    (h : setData s k v = .ok s') : s'.get k = some v := by
  rw [set_eq_some (setData_ok h)]
  simp only [Store.get]
  exact lookup_cons_self k

theorem setData_get_ne {s s' : Store} {k k' : String} {v : Val}
    (h : setData s k v = .ok s') (hne : k' ≠ k) : s'.get k' = s.get k' := by
  rw [set_eq_some (setData_ok h)]
  simp only [Store.get]
  rw [lookup_cons_ne hne]
  exact lookup_filter_ne _ _ _ hne

theorem setData_failW {s s' : Store} {k : String} {v : Val}
    (h : setData s k v = .ok s') : s'.failW = s.failW := by
  rw [set_eq_some (setData_ok h)]

theorem delData_get_self {s s' : Store} {k : String}
    (h : delData s k = .ok s') : s'.get k = none := by
  rw [del_eq_some (delData_ok h)]
  exact lookup_filter_self _ _

theorem delData_get_ne {s s' : Store} {k k' : String}
    (h : delData s k = .ok s') (hne : k' ≠ k) : s'.get k' = s.get k' := by
  rw [del_eq_some (delData_ok h)]
  exact lookup_filter_ne _ _ _ hne

theorem delData_get_none {s s' : Store} {k k' : String}
    (h : delData s k = .ok s') (h0 : s.get k' = none) : s'.get k' = none := by
  by_cases hk : k' = k
  · subst hk; exact delData_get_self h
  · rw [delData_get_ne h hk]; exact h0


theorem setData_mem (s : Store) (k : String) (v : Val) (h : k ∈ s.failW) :
    setData s k v = .error .internal := by
  unfold setData Store.set
  rw [if_pos h]

theorem setData_not_mem (s : Store) (k : String) (v : Val) (h : k ∉ s.failW) :
    setData s k v =
      .ok ⟨(k, v) :: s.entries.filter (fun p => p.1 ≠ k), s.failW⟩ := by
  unfold setData Store.set
  rw [if_neg h]

theorem setData_error {s : Store} {k : String} {v : Val} {e : Err}
    (h : setData s k v = .error e) : e = .internal := by
  unfold setData at h
  split at h
  next => exact Except.noConfusion h
  next => cases h; rfl

/-! ### Minimum-fold lemmas for the reclamation bound -/

theorem foldr_min_min (xs : List Nat) (a b : Nat) :
    xs.foldr min (min a b) = min a (xs.foldr min b) := by
  induction xs with
  | nil => rfl
  | cons c xs ih => simp [List.foldr_cons, ih, min_left_comm]

theorem foldl_frontier (ls : List (String × Line)) (b : Nat) :
    ls.foldl
      (fun e p =>
        if p.2.recycle > 0 then (if p.2.ihead < e then p.2.ihead else e)
        else (if p.2.head < e then p.2.head else e)) b
      = (ls.map (fun p => if p.2.recycle > 0 then p.2.ihead else p.2.head)).foldr
          min b := by
  induction ls generalizing b with
  | nil => rfl
  | cons a ls ih =>
    rw [List.foldl_cons, ih, List.map_cons, List.foldr_cons, ← foldr_min_min]
    congr 1
    by_cases hr : a.2.recycle > 0 <;> rw [Nat.min_def] <;>
      simp only [hr, if_true, if_false] <;> split_ifs <;> omega

theorem getEnd_eq_specEnd (t : Topic) : t.getEnd = specEnd t := by
  unfold Topic.getEnd specEnd
  by_cases h : t.lines = []
  · simp [h]
  · rw [if_neg (by simpa using h), if_neg h, foldl_frontier]

/-! ### Clean-loop lemmas -/

theorem cleanLoop_preserve (name headKey : String) (ending : Nat)
    (q tmo : Nat → Bool) (k : String) (hk1 : k ≠ headKey)
    (hk2 : ∀ j, j < ending → k ≠ acatui name ":" j) :
    ∀ fuel i head s,
      ((cleanLoop name headKey ending q tmo fuel i head s).2.2).get k
        = s.get k := by
  intro fuel
  induction fuel with
  | zero => intro i head s; rfl
  | succ fuel ih =>
    intro i head s
    rw [cleanLoop]
    by_cases hlt : head < ending
    · rw [if_pos hlt]
      by_cases hq : q i
      · simp [hq]
      · rw [if_neg (by simpa using hq)]
        by_cases hto : tmo i
        · simp [hto]
        · rw [if_neg (by simpa using hto)]
          cases hdel : delData s (acatui name ":" head) with
          | error e => simp
          | ok s1 =>
            simp only
            cases hset : setData s1 headKey (.anchor (head + 1)) with
            | error e =>
              simp only
              exact delData_get_ne hdel (hk2 head hlt)
            | ok s2 =>
              simp only
              rw [ih]
              rw [setData_get_ne hset hk1]
              exact delData_get_ne hdel (hk2 head hlt)
    · rw [if_neg hlt]

theorem cleanLoop_none (name headKey : String) (ending : Nat)
    (q tmo : Nat → Bool) (k : String) (hk1 : k ≠ headKey) :
    ∀ fuel i head s, s.get k = none →
      ((cleanLoop name headKey ending q tmo fuel i head s).2.2).get k
        = none := by
  intro fuel
  induction fuel with
  | zero => intro i head s h0; exact h0
  | succ fuel ih =>
    intro i head s h0
    rw [cleanLoop]
    by_cases hlt : head < ending
    · rw [if_pos hlt]
      by_cases hq : q i
      · simpa [hq] using h0
      · rw [if_neg (by simpa using hq)]
        by_cases hto : tmo i
        · simpa [hto] using h0
        · rw [if_neg (by simpa using hto)]
          cases hdel : delData s (acatui name ":" head) with
          | error e => simpa using h0
          | ok s1 =>
            simp only
            cases hset : setData s1 headKey (.anchor (head + 1)) with
            | error e =>
              simp only
              exact delData_get_none hdel h0
            | ok s2 =>
              simp only
              refine ih _ _ _ ?_
              rw [setData_get_ne hset hk1]
              exact delData_get_none hdel h0
    · rw [if_neg hlt]; exact h0

theorem cleanLoop_le (name headKey : String) (ending : Nat)
    (q tmo : Nat → Bool) :
    ∀ fuel i head s,
      head ≤ (cleanLoop name headKey ending q tmo fuel i head s).2.1 := by
  intro fuel
  induction fuel with
  | zero => intro i head s; exact Nat.le_refl _
  | succ fuel ih =>
    intro i head s
    rw [cleanLoop]
    by_cases hlt : head < ending
    · rw [if_pos hlt]
      by_cases hq : q i
      · simp [hq]
      · rw [if_neg (by simpa using hq)]
        by_cases hto : tmo i
        · simp [hto]
        · rw [if_neg (by simpa using hto)]
          cases hdel : delData s (acatui name ":" head) with
          | error e => simp
          | ok s1 =>
            simp only
            cases hset : setData s1 headKey (.anchor (head + 1)) with
            | error e => simp
            | ok s2 =>
              simp only
              exact Nat.le_trans (Nat.le_succ _) (ih (i + 1) (head + 1) s2)
    · rw [if_neg hlt]

theorem cleanLoop_deletes (name headKey : String) (ending : Nat)
    (q tmo : Nat → Bool)
    (hk : ∀ j, j < ending → headKey ≠ acatui name ":" j) :
    ∀ fuel i head s m, head ≤ m →
      m < (cleanLoop name headKey ending q tmo fuel i head s).2.1 →
      ((cleanLoop name headKey ending q tmo fuel i head s).2.2).get
        (acatui name ":" m) = none := by
  intro fuel
  induction fuel with
  | zero =>
    intro i head s m hm hlt
    rw [cleanLoop] at hlt
    simp only at hlt
    omega
  | succ fuel ih =>
    intro i head s m hm hm2
    rw [cleanLoop] at hm2 ⊢
    by_cases hlt : head < ending
    · rw [if_pos hlt] at hm2 ⊢
      by_cases hq : q i
      · rw [if_pos hq] at hm2; simp at hm2; omega
      · rw [if_neg (by simpa using hq)] at hm2 ⊢
        by_cases hto : tmo i
        · rw [if_pos hto] at hm2; simp at hm2; omega
        · rw [if_neg (by simpa using hto)] at hm2 ⊢
          cases hdel : delData s (acatui name ":" head) with
          | error e => rw [hdel] at hm2; simp at hm2; omega
          | ok s1 =>
            rw [hdel] at hm2
            simp only at hm2 ⊢
            cases hset : setData s1 headKey (.anchor (head + 1)) with
            | error e =>
              rw [hset] at hm2
              simp only at hm2
              have hmh : m = head := by omega
              subst hmh
              exact delData_get_self hdel
            | ok s2 =>
              rw [hset] at hm2
              simp only at hm2
              rcases Nat.eq_or_lt_of_le hm with hmh | hmlt
              · rw [← hmh]
                refine cleanLoop_none name headKey ending q tmo _
                  (Ne.symm (hk head hlt)) _ _ _ _ ?_
                rw [setData_get_ne hset (Ne.symm (hk head hlt))]
                exact delData_get_self hdel
              · exact ih (i + 1) (head + 1) s2 m hmlt hm2
    · rw [if_neg hlt] at hm2; simp at hm2; omega

/-! ### mPush loop lemmas -/

theorem mPushLoop_empty (name : String) (oldTail : Nat) :
    ∀ datas tail (s : Store), s.failW = [] → (∃ d ∈ datas, d.length = 0) →
      (mPushLoop name oldTail tail s datas).1 = some .badRequest := by
  intro datas
  induction datas with
  | nil => intro tail s hW h; simp at h
  | cons d ds ih =>
    intro tail s hW h
    rw [mPushLoop]
    by_cases hd : d.length = 0
    · rw [if_pos hd]
    · rw [if_neg hd]
      have h1 : acatui name ":" tail ∉ s.failW := by rw [hW]; simp
      rw [setData_not_mem _ _ _ h1]
      dsimp only
      refine ih _ _ hW ?_
      rcases h with ⟨d2, hd2, hlen⟩
      rcases List.mem_cons.mp hd2 with rfl | hmem
      · exact absurd hlen hd
      · exact ⟨d2, hmem, hlen⟩

theorem mPushLoop_err_tail (name : String) (oldTail : Nat) :
    ∀ datas tail (s : Store),
      (mPushLoop name oldTail tail s datas).1 = some .internal →
      (mPushLoop name oldTail tail s datas).2.1 = oldTail := by
  intro datas
  induction datas with
  | nil => intro tail s h; simp [mPushLoop] at h
  | cons d ds ih =>
    intro tail s h
    rw [mPushLoop] at h ⊢
    by_cases hd : d.length = 0
    · rw [if_pos hd] at h; simp at h
    · rw [if_neg hd] at h ⊢
      cases hset : setData s (acatui name ":" tail) (.payload d) with
      | error e => rfl
      | ok s1 =>
        rw [hset] at h
        exact ih _ _ h

theorem mPushLoop_spec (name tailKey : String) (oldTail : Nat) :
    ∀ datas tail (s : Store),
      tail + datas.length < UMOD →
      (∀ j, tail ≤ j → j < tail + datas.length →
        tailKey ≠ acatui name ":" j) →
      ((mPushLoop name oldTail tail s datas).1 = some .badRequest →
        (mPushLoop name oldTail tail s datas).2.1
          = tail + (datas.takeWhile (fun d => d.length ≠ 0)).length ∧
        ((mPushLoop name oldTail tail s datas).2.2).get tailKey
          = s.get tailKey) ∧
      ((mPushLoop name oldTail tail s datas).1 = none →
        (mPushLoop name oldTail tail s datas).2.1 = tail + datas.length ∧
        ((mPushLoop name oldTail tail s datas).2.2).get tailKey
          = s.get tailKey) := by
  intro datas
  induction datas with
  | nil =>
    intro tail s hL hk
    constructor
    · intro h; simp [mPushLoop] at h
    · intro h; exact ⟨by simp [mPushLoop], rfl⟩
  | cons d ds ih =>
    intro tail s hL hk
    have hlen : tail + (d :: ds).length = tail + ds.length + 1 := by
      simp [List.length_cons]; omega
    have hmod : (tail + 1) % UMOD = tail + 1 :=
      Nat.mod_eq_of_lt (by rw [hlen] at hL; omega)
    have hkt : tailKey ≠ acatui name ":" tail :=
      hk tail (Nat.le_refl _) (by rw [hlen]; omega)
    constructor
    · intro h
      rw [mPushLoop] at h ⊢
      by_cases hd : d.length = 0
      · rw [if_pos hd] at h ⊢
        refine ⟨?_, rfl⟩
        have hfd : decide (d.length ≠ 0) = false := by simp [hd]
        simp only [List.takeWhile, hfd]
        rfl
      · rw [if_neg hd] at h ⊢
        cases hset : setData s (acatui name ":" tail) (.payload d) with
        | error e =>
          rw [hset] at h
          dsimp only at h
          rw [setData_error hset] at h
          simp at h
        | ok s1 =>
          rw [hset] at h
          dsimp only at h
          dsimp only
          rw [hmod] at h ⊢
          have ihs := ih (tail + 1) s1
            (by rw [hlen] at hL; omega)
            (fun j hj1 hj2 => hk j (by omega)
              (by rw [hlen]; omega))
          obtain ⟨hres1, hres2⟩ := (ihs.1) h
          constructor
          · rw [hres1]
            have hfd : decide (d.length ≠ 0) = true := by simp [hd]
            simp only [List.takeWhile, hfd, List.length_cons]
            omega
          · rw [hres2]
            exact setData_get_ne hset hkt
    · intro h
      rw [mPushLoop] at h ⊢
      by_cases hd : d.length = 0
      · rw [if_pos hd] at h; simp at h
      · rw [if_neg hd] at h ⊢
        cases hset : setData s (acatui name ":" tail) (.payload d) with
        | error e =>
          rw [hset] at h
          simp at h
        | ok s1 =>
          rw [hset] at h
          dsimp only at h
          dsimp only
          rw [hmod] at h ⊢
          have ihs := ih (tail + 1) s1
            (by rw [hlen] at hL; omega)
            (fun j hj1 hj2 => hk j (by omega)
              (by rw [hlen]; omega))
          obtain ⟨hres1, hres2⟩ := (ihs.2) h
          constructor
          · rw [hres1]; simp only [List.length_cons]; omega
          · rw [hres2]
            exact setData_get_ne hset hkt

/-! ### Claim theorems -/

/-- C2: for every topic, `getEnd` returns the reclamation bound as
specified (head when there are no lines, else the per-line frontier minimum
capped by tail), and the clean pass never touches a message key of an id at
or above this bound. -/
theorem getEnd_reclamation_bound (t : Topic) (s : Store) (q tmo : Nat → Bool)
    (i : Nat) (hge : t.getEnd ≤ i)
    (hk1 : acatui t.name ":" i ≠ t.headKey)
    (hk2 : ∀ j, j < t.getEnd → acatui t.name ":" i ≠ acatui t.name ":" j) :
    t.getEnd = specEnd t ∧
    ((t.clean s q tmo).2.2).get (acatui t.name ":" i)
      = s.get (acatui t.name ":" i) := by
  refine ⟨getEnd_eq_specEnd t, ?_⟩
  have hge2 := hge
  simp only [Topic.clean]
  exact cleanLoop_preserve _ _ _ _ _ _ hk1 hk2 _ _ _ _

/-- C2 witness: a topic with one auto-ack line at head 2 and tail 3; the
bound is 2 and the message key of id 5 survives a clean pass. -/
theorem getEnd_reclamation_bound_witness :
    Topic.getEnd ⟨"T", [("L", ⟨"L", 2, 2, 0, [], []⟩)], 0, "T:head", 3, "T:tail"⟩
      = specEnd ⟨"T", [("L", ⟨"L", 2, 2, 0, [], []⟩)], 0, "T:head", 3, "T:tail"⟩ ∧
    ((Topic.clean ⟨"T", [("L", ⟨"L", 2, 2, 0, [], []⟩)], 0, "T:head", 3, "T:tail"⟩
        ⟨[("T:0", .payload [7]), ("T:5", .payload [9])], []⟩
        (fun _ => false) (fun _ => false)).2.2).get (acatui "T" ":" 5)
      = (Store.get ⟨[("T:0", .payload [7]), ("T:5", .payload [9])], []⟩
          (acatui "T" ":" 5)) :=
  getEnd_reclamation_bound _ _ _ _ 5 (by decide) (by decide) (by decide)

/-- C3: a clean pass only advances `head` and, when it returns, every id in
`[oldHead, newHead)` has had its message key deleted from the KV store. -/
theorem clean_deletes_reclaimed_range (t : Topic) (s : Store)
    (q tmo : Nat → Bool)
    (hk : ∀ j, j < t.getEnd → t.headKey ≠ acatui t.name ":" j) :
    t.head ≤ ((t.clean s q tmo).2.1).head ∧
    ∀ i, t.head ≤ i → i < ((t.clean s q tmo).2.1).head →
      ((t.clean s q tmo).2.2).get (acatui t.name ":" i) = none := by
  simp only [Topic.clean]
  exact ⟨cleanLoop_le _ _ _ _ _ _ _ _ _,
    fun i h1 h2 => cleanLoop_deletes _ _ _ _ _ hk _ _ _ _ i h1 h2⟩

/-- C3 witness: cleaning a topic whose line frontier is 2 removes the keys
of ids 0 and 1. -/
theorem clean_deletes_reclaimed_range_witness :
    ((Topic.clean ⟨"T", [("L", ⟨"L", 2, 2, 0, [], []⟩)], 0, "T:head", 3, "T:tail"⟩
        ⟨[("T:0", .payload [7]), ("T:1", .payload [8])], []⟩
        (fun _ => false) (fun _ => false)).2.2).get (acatui "T" ":" 0)
      = none ∧
    ((Topic.clean ⟨"T", [("L", ⟨"L", 2, 2, 0, [], []⟩)], 0, "T:head", 3, "T:tail"⟩
        ⟨[("T:0", .payload [7]), ("T:1", .payload [8])], []⟩
        (fun _ => false) (fun _ => false)).2.2).get (acatui "T" ":" 1)
      = none :=
  ⟨(clean_deletes_reclaimed_range _ _ _ _ (by decide)).2 0 (by decide)
      (by decide),
   (clean_deletes_reclaimed_range _ _ _ _ (by decide)).2 1 (by decide)
      (by decide)⟩

/-- C4: `push` persists the payload at `"{topic}:{tail}"`, then increments
`tail` and persists the tail anchor; if the anchor write fails, `tail` is
rolled back while the payload key remains; if the payload write fails,
nothing changes. -/
theorem push_persist_then_advance (t : Topic) (s : Store) (data : List Nat)
    (hL : t.tail + 1 < UMOD)
    (hne : t.tailKey ≠ acatui t.name ":" t.tail) :
    ((acatui t.name ":" t.tail) ∉ s.failW → t.tailKey ∉ s.failW →
      (t.push s data).1 = none ∧
      (t.push s data).2.1.tail = t.tail + 1 ∧
      ((t.push s data).2.2).get (acatui t.name ":" t.tail)
        = some (.payload data) ∧
      ((t.push s data).2.2).get t.tailKey = some (.anchor (t.tail + 1))) ∧
    ((acatui t.name ":" t.tail) ∉ s.failW → t.tailKey ∈ s.failW →
      (t.push s data).1 = some .internal ∧
      (t.push s data).2.1.tail = t.tail ∧
      ((t.push s data).2.2).get (acatui t.name ":" t.tail)
        = some (.payload data)) ∧
    ((acatui t.name ":" t.tail) ∈ s.failW →
      t.push s data = (some .internal, t, s)) := by
  have hmod : (t.tail + 1) % UMOD = t.tail + 1 := Nat.mod_eq_of_lt hL
  have hroll : ((t.tail + 1) % UMOD + (UMOD - 1)) % UMOD = t.tail := by
    simp only [UMOD] at hL ⊢
    omega
  refine ⟨?_, ?_, ?_⟩
  · intro h1 h2
    cases hset1 : setData s (acatui t.name ":" t.tail) (.payload data) with
    | error e =>
      rw [setData_not_mem _ _ _ h1] at hset1
      exact Except.noConfusion hset1
    | ok s1 =>
      have hget1 : s1.get (acatui t.name ":" t.tail) = some (.payload data) :=
        setData_get_self hset1
      have h2b : t.tailKey ∉ s1.failW := by
        rw [setData_failW hset1]; exact h2
      simp only [Topic.push]
      rw [hset1]
      dsimp only
      cases hset2 : setData s1 t.tailKey (.anchor ((t.tail + 1) % UMOD)) with
      | error e =>
        rw [setData_not_mem _ _ _ h2b] at hset2
        exact Except.noConfusion hset2
      | ok s2 =>
        dsimp only
        refine ⟨rfl, hmod, ?_, ?_⟩
        · rw [setData_get_ne hset2 (Ne.symm hne)]
          exact hget1
        · rw [setData_get_self hset2, hmod]
  · intro h1 h2
    cases hset1 : setData s (acatui t.name ":" t.tail) (.payload data) with
    | error e =>
      rw [setData_not_mem _ _ _ h1] at hset1
      exact Except.noConfusion hset1
    | ok s1 =>
      have hget1 : s1.get (acatui t.name ":" t.tail) = some (.payload data) :=
        setData_get_self hset1
      have h2b : t.tailKey ∈ s1.failW := by
        rw [setData_failW hset1]; exact h2
      simp only [Topic.push]
      rw [hset1]
      dsimp only
      rw [setData_mem _ _ _ h2b]
      dsimp only
      exact ⟨rfl, hroll, hget1⟩
  · intro h1
    simp only [Topic.push]
    rw [setData_mem _ _ _ h1]

/-- C4 witness: pushing `[5]` onto a fresh topic stores the payload at
`"T:0"`, advances the tail to 1 and persists the tail anchor. -/
theorem push_persist_then_advance_witness :
    (Topic.push ⟨"T", [], 0, "T:head", 0, "T:tail"⟩ ⟨[], []⟩ [5]).1 = none ∧
    (Topic.push ⟨"T", [], 0, "T:head", 0, "T:tail"⟩ ⟨[], []⟩ [5]).2.1.tail
      = 1 ∧
    ((Topic.push ⟨"T", [], 0, "T:head", 0, "T:tail"⟩ ⟨[], []⟩ [5]).2.2).get
      (acatui "T" ":" 0) = some (.payload [5]) ∧
    ((Topic.push ⟨"T", [], 0, "T:head", 0, "T:tail"⟩ ⟨[], []⟩ [5]).2.2).get
      "T:tail" = some (.anchor 1) :=
  (push_persist_then_advance _ _ _ (by decide) (by decide)).1 (by decide)
    (by decide)

/-- C5: on a store whose writes succeed, `mPush` of a batch containing an
empty payload fails with `BadRequest`. -/
theorem mPush_rejects_empty_payload (t : Topic) (s : Store)
    (datas : List (List Nat)) (hW : s.failW = [])
    (h : ∃ d ∈ datas, d.length = 0) :
    (t.mPush s datas).1 = some .badRequest := by
  have hloop := mPushLoop_empty t.name t.tail datas t.tail s hW h
  simp only [Topic.mPush]
  cases hl : mPushLoop t.name t.tail t.tail s datas with
  | mk e r =>
    cases r with
    | mk tailF sF =>
      rw [hl] at hloop
      dsimp only at hloop
      subst hloop
      rfl

/-- C5 witness: the batch `[[1], []]` is rejected with `BadRequest`. -/
theorem mPush_rejects_empty_payload_witness :
    (Topic.mPush ⟨"T", [], 0, "T:head", 0, "T:tail"⟩ ⟨[], []⟩ [[1], []]).1
      = some .badRequest :=
  mPush_rejects_empty_payload _ _ _ (by decide) (by decide)

/-- C1 counterexample: `mPush` of `[[1], []]` fails (`BadRequest`), yet the
in-memory tail is 1, not the pre-batch value 0 — the batch was not atomic
with respect to in-memory state. -/
theorem mPush_fail_tail_advanced_cex :
    (Topic.mPush ⟨"T", [], 0, "T:head", 0, "T:tail"⟩ ⟨[], []⟩ [[1], []]).1
      = some .badRequest ∧
    (Topic.mPush ⟨"T", [], 0, "T:head", 0, "T:tail"⟩ ⟨[], []⟩
      [[1], []]).2.1.tail = 1 := by
  decide

/-- C1 (amended): if `mPush` fails on a KV error (message write or tail
anchor), the tail is restored to the pre-batch value; if it fails with
`BadRequest` on an empty payload, the tail keeps the advances made for the
earlier payloads of the batch and the stored tail anchor is untouched; the
new tail anchor is published only at the end of a fully successful batch. -/
theorem mPush_batch_outcomes (t : Topic) (s : Store) (datas : List (List Nat))
    (hL : t.tail + datas.length < UMOD)
    (hne : ∀ j, j < t.tail + datas.length →
      t.tailKey ≠ acatui t.name ":" j) :
    ((t.mPush s datas).1 = some .internal →
      (t.mPush s datas).2.1.tail = t.tail) ∧
    ((t.mPush s datas).1 = some .badRequest →
      (t.mPush s datas).2.1.tail
        = t.tail + (datas.takeWhile (fun d => d.length ≠ 0)).length ∧
      ((t.mPush s datas).2.2).get t.tailKey = s.get t.tailKey) ∧
    ((t.mPush s datas).1 = none →
      (t.mPush s datas).2.1.tail = t.tail + datas.length ∧
      ((t.mPush s datas).2.2).get t.tailKey
        = some (.anchor (t.tail + datas.length))) := by
  have hspec := mPushLoop_spec t.name t.tailKey t.tail datas t.tail s hL
    (fun j _ hj2 => hne j hj2)
  simp only [Topic.mPush]
  cases hl : mPushLoop t.name t.tail t.tail s datas with
  | mk e r =>
    cases r with
    | mk tailF sF =>
      rw [hl] at hspec
      dsimp only at hspec
      obtain ⟨hbr, hok⟩ := hspec
      cases e with
      | none =>
        dsimp only
        obtain ⟨htail, _⟩ := hok rfl
        subst htail
        cases hset : setData sF t.tailKey (.anchor (t.tail + datas.length)) with
        | error e2 =>
          dsimp only
          refine ⟨fun _ => rfl, fun hb => ?_, fun hn => ?_⟩
          · rw [setData_error hset] at hb
            simp at hb
          · rw [setData_error hset] at hn
            simp at hn
        | ok s2 =>
          dsimp only
          refine ⟨fun hi => ?_, fun hb => ?_, fun _ => ⟨rfl, ?_⟩⟩
          · simp at hi
          · simp at hb
          · exact setData_get_self hset
      | some err =>
        dsimp only
        refine ⟨fun hi => ?_, fun hb => ?_, fun hn => ?_⟩
        · injection hi with hi
          subst hi
          have hrt := mPushLoop_err_tail t.name t.tail datas t.tail s
            (by rw [hl])
          rw [hl] at hrt
          exact hrt
        · injection hb with hb
          subst hb
          exact hbr rfl
        · exact Option.noConfusion hn

/-- C1 witness: a fully successful batch of two payloads advances the tail
by two and publishes the new tail anchor. -/
theorem mPush_batch_outcomes_witness :
    (Topic.mPush ⟨"T", [], 0, "T:head", 0, "T:tail"⟩ ⟨[], []⟩
      [[1], [2]]).2.1.tail = 0 + 2 ∧
    ((Topic.mPush ⟨"T", [], 0, "T:head", 0, "T:tail"⟩ ⟨[], []⟩
      [[1], [2]]).2.2).get "T:tail" = some (.anchor (0 + 2)) :=
  (mPush_batch_outcomes _ _ _ (by decide) (by decide)).2.2 (by decide)

/-! ### Line/topic empty lemmas -/

theorem lineEmpty_line (tname : String) (l : Line) (s : Store) :
    (lineEmpty tname l s).2.1
      = { l with ihead := l.head, inflight := [], imap := [] } := by
  unfold lineEmpty
  dsimp only
  cases hset : setData s (tname ++ "/" ++ l.name)
      (.lineSnap l.head l.head []) with
  | error e => rfl
  | ok s1 => rfl

theorem lineEmpty_store (tname : String) (l : Line) (s : Store) (k : String)
    (hk : k ≠ tname ++ "/" ++ l.name) :
    ((lineEmpty tname l s).2.2).get k = s.get k := by
  unfold lineEmpty
  dsimp only
  cases hset : setData s (tname ++ "/" ++ l.name)
      (.lineSnap l.head l.head []) with
  | error e => rfl
  | ok s1 =>
    dsimp only
    exact setData_get_ne hset hk

theorem emptyLines_store (tname : String) (k : String) :
    ∀ ls (s : Store), (∀ p ∈ ls, k ≠ tname ++ "/" ++ p.2.name) →
      ((emptyLines tname ls s).2.2).get k = s.get k := by
  intro ls
  induction ls with
  | nil => intro s h; rfl
  | cons a ls ih =>
    intro s h
    rcases a with ⟨n, l⟩
    rw [emptyLines]
    cases hle : lineEmpty tname l s with
    | mk e r =>
      cases r with
      | mk l1 s1 =>
        have hs1 : s1.get k = s.get k := by
          have := lineEmpty_store tname l s k (h (n, l) (List.mem_cons_self _ _))
          rw [hle] at this
          exact this
        cases e with
        | some e2 => exact hs1
        | none =>
          dsimp only
          cases hrest : emptyLines tname ls s1 with
          | mk e2 r2 =>
            cases r2 with
            | mk ls2 s2 =>
              dsimp only
              have := ih s1 (fun p hp => h p (List.mem_cons_of_mem _ hp))
              rw [hrest] at this
              rw [this]
              exact hs1

theorem emptyLines_lines (tname : String) :
    ∀ ls (s : Store), (emptyLines tname ls s).1 = none →
      ∀ p ∈ (emptyLines tname ls s).2.1,
        p.2.ihead = p.2.head ∧ p.2.inflight = [] ∧ p.2.imap = [] := by
  intro ls
  induction ls with
  | nil => intro s hok p hp; simp [emptyLines] at hp
  | cons a ls ih =>
    intro s hok p hp
    rcases a with ⟨n, l⟩
    rw [emptyLines] at hok hp
    cases hle : lineEmpty tname l s with
    | mk e r =>
      cases r with
      | mk l1 s1 =>
        rw [hle] at hok hp
        have hl1 : l1 = { l with ihead := l.head, inflight := [], imap := [] } := by
          have := lineEmpty_line tname l s
          rw [hle] at this
          exact this
        cases e with
        | some e2 => exact absurd hok (by simp)
        | none =>
          dsimp only at hok hp
          cases hrest : emptyLines tname ls s1 with
          | mk e2 r2 =>
            cases r2 with
            | mk ls2 s2 =>
              rw [hrest] at hok hp
              dsimp only at hok hp
              rcases List.mem_cons.mp hp with heq | hmem
              · subst heq
                rw [hl1]
                exact ⟨rfl, rfl, rfl⟩
              · have := ih s1 ?_ p ?_
                · exact this
                · rw [hrest]; exact hok
                · rw [hrest]; exact hmem

/-! ### Load lemmas -/

theorem mem_loadTopics (s : Store) :
    ∀ names (n : String) (t : Topic),
      ((n, t) ∈ loadTopics s names ↔
        n ∈ names ∧ loadOneTopic s n = some t) := by
  intro names
  induction names with
  | nil => intro n t; simp [loadTopics]
  | cons m rest ih =>
    intro n t
    rw [loadTopics]
    cases hm : loadOneTopic s m with
    | some t2 =>
      constructor
      · intro hmem
        rcases List.mem_cons.mp hmem with heq | hmem2
        · rw [Prod.mk.injEq] at heq
          obtain ⟨h1, h2⟩ := heq
          subst h1
          subst h2
          exact ⟨List.mem_cons_self _ _, hm⟩
        · have := (ih n t).mp hmem2
          exact ⟨List.mem_cons_of_mem _ this.1, this.2⟩
      · rintro ⟨hn, hload⟩
        rcases List.mem_cons.mp hn with rfl | hn2
        · rw [hm] at hload
          injection hload with hload
          subst hload
          exact List.mem_cons_self _ _
        · exact List.mem_cons_of_mem _ ((ih n t).mpr ⟨hn2, hload⟩)
    | none =>
      constructor
      · intro hmem
        have := (ih n t).mp hmem
        exact ⟨List.mem_cons_of_mem _ this.1, this.2⟩
      · rintro ⟨hn, hload⟩
        rcases List.mem_cons.mp hn with rfl | hn2
        · rw [hm] at hload
          exact Option.noConfusion hload
        · exact (ih n t).mpr ⟨hn2, hload⟩

/-! ### Creation lemmas -/

theorem lookup_append_of_none {β : Type} (l1 : List (String × β))
    (k : String) (v : β) (h : l1.lookup k = none) :
    (l1 ++ [(k, v)]).lookup k = some v := by
  induction l1 with
  | nil => exact lookup_cons_self k
  | cons a l ih =>
    rcases a with ⟨a1, a2⟩
    by_cases hk : k = a1
    · subst hk
      rw [lookup_cons_self] at h
      exact Option.noConfusion h
    · rw [List.cons_append, lookup_cons_ne hk]
      rw [lookup_cons_ne hk] at h
      exact ih h

theorem newLine_ok {t : Topic} {name : String} {recycle : Int} {s : Store}
    {l : Line} {s1 : Store}
    (h : t.newLine name recycle s = .ok (l, s1)) :
    l = ⟨name, t.head, t.head, recycle, [], []⟩ := by
  unfold Topic.newLine at h
  dsimp only at h
  split at h
  next => exact Except.noConfusion h
  next =>
    split at h
    next => exact Except.noConfusion h
    next =>
      injection h with h
      rw [Prod.mk.injEq] at h
      exact h.1.symm

/-- C6 counterexample: on a store where every write to the tail-anchor key
fails and the stored tail anchor is stale, `empty` on a topic with tail 5
still succeeds and leaves the stored tail anchor untouched — so the tail
anchor is not persisted by `empty`. -/
theorem empty_no_tail_anchor_cex :
    (Topic.empty ⟨"T", [], 0, "T:head", 5, "T:tail"⟩
        ⟨[("T:tail", .anchor 0)], ["T:tail"]⟩).1 = none ∧
    (Topic.empty ⟨"T", [], 0, "T:head", 5, "T:tail"⟩
        ⟨[("T:tail", .anchor 0)], ["T:tail"]⟩).2.1.head = 5 ∧
    ((Topic.empty ⟨"T", [], 0, "T:head", 5, "T:tail"⟩
        ⟨[("T:tail", .anchor 0)], ["T:tail"]⟩).2.2).get "T:tail"
      = some (.anchor 0) := by
  decide

/-- C6 (amended): successful `empty` on a topic empties every line, sets
`head = tail`, and persists the head anchor only; the tail anchor entry of
the store is left as it was. -/
theorem empty_sets_head_only (t : Topic) (s : Store)
    (h1 : t.tailKey ≠ t.headKey)
    (h2 : ∀ p ∈ t.lines, t.tailKey ≠ t.name ++ "/" ++ p.2.name)
    (hok : (t.empty s).1 = none) :
    (t.empty s).2.1.head = (t.empty s).2.1.tail ∧
    ((t.empty s).2.2).get t.headKey = some (.anchor t.tail) ∧
    ((t.empty s).2.2).get t.tailKey = s.get t.tailKey ∧
    ∀ p ∈ (t.empty s).2.1.lines,
      p.2.ihead = p.2.head ∧ p.2.inflight = [] ∧ p.2.imap = [] := by
  simp only [Topic.empty] at hok ⊢
  cases hel : emptyLines t.name t.lines s with
  | mk e r =>
    cases r with
    | mk ls s1 =>
      rw [hel] at hok
      cases e with
      | some e2 => exact absurd hok (by simp)
      | none =>
        dsimp only at hok ⊢
        cases hset : setData s1 t.headKey (.anchor t.tail) with
        | error e2 =>
          rw [hset] at hok
          exact absurd hok (by simp)
        | ok s2 =>
          dsimp only
          refine ⟨rfl, setData_get_self hset, ?_, ?_⟩
          · rw [setData_get_ne hset h1]
            have := emptyLines_store t.name t.tailKey t.lines s h2
            rw [hel] at this
            exact this
          · intro p hp
            exact emptyLines_lines t.name t.lines s (by rw [hel]) p
              (by rw [hel]; exact hp)

/-- C6 witness: emptying a topic with one line (head 3, ihead 1, two imap
entries, one in-flight record) empties the line, sets `head = tail = 3`,
persists the head anchor and leaves the tail anchor entry unchanged. -/
theorem empty_sets_head_only_witness :
    (Topic.empty
        ⟨"T", [("L", ⟨"L", 3, 1, 5, [(1, 10)], [(1, true), (2, false)]⟩)],
          0, "T:head", 3, "T:tail"⟩
        ⟨[("T:tail", .anchor 3)], []⟩).2.1.head
      = (Topic.empty
        ⟨"T", [("L", ⟨"L", 3, 1, 5, [(1, 10)], [(1, true), (2, false)]⟩)],
          0, "T:head", 3, "T:tail"⟩
        ⟨[("T:tail", .anchor 3)], []⟩).2.1.tail ∧
    ((Topic.empty
        ⟨"T", [("L", ⟨"L", 3, 1, 5, [(1, 10)], [(1, true), (2, false)]⟩)],
          0, "T:head", 3, "T:tail"⟩
        ⟨[("T:tail", .anchor 3)], []⟩).2.2).get "T:head"
      = some (.anchor 3) ∧
    ((Topic.empty
        ⟨"T", [("L", ⟨"L", 3, 1, 5, [(1, 10)], [(1, true), (2, false)]⟩)],
          0, "T:head", 3, "T:tail"⟩
        ⟨[("T:tail", .anchor 3)], []⟩).2.2).get "T:tail"
      = (Store.get ⟨[("T:tail", .anchor 3)], []⟩ "T:tail") ∧
    ∀ p ∈ (Topic.empty
        ⟨"T", [("L", ⟨"L", 3, 1, 5, [(1, 10)], [(1, true), (2, false)]⟩)],
          0, "T:head", 3, "T:tail"⟩
        ⟨[("T:tail", .anchor 3)], []⟩).2.1.lines,
      p.2.ihead = p.2.head ∧ p.2.inflight = [] ∧ p.2.imap = [] :=
  empty_sets_head_only _ _ (by decide) (by decide) (by decide)

/-- C7 counterexample: `Create` accepts the topic name `"a/b"` — no
validation excludes `/` (or `:`) from topic names, so the claimed
constraint on names in the topics map does not hold. -/
theorem create_accepts_slash_name_cex :
    (UnitedQueue.Create ⟨[]⟩ ⟨"a/b", "", 0⟩ ⟨[], []⟩).1 = none ∧
    ((UnitedQueue.Create ⟨[]⟩ ⟨"a/b", "", 0⟩ ⟨[], []⟩).2.1.topics.lookup
      "a/b").isSome = true := by
  decide

/-- C7 (amended): `Create` with an empty topic name fails with `BadKey`
and changes nothing; no further validation of topic names is performed. -/
theorem create_empty_name_badKey (u : UnitedQueue) (qr : QueueRequest)
    (s : Store) (h : qr.topicName = "") :
    u.Create qr s = (some .badKey, u, s) := by
  simp [UnitedQueue.Create, h]

/-- C7 witness: creating with an empty topic name is rejected. -/
theorem create_empty_name_badKey_witness :
    UnitedQueue.Create ⟨[]⟩ ⟨"", "L", 0⟩ ⟨[], []⟩
      = (some .badKey, ⟨[]⟩, ⟨[], []⟩) :=
  create_empty_name_badKey _ _ _ rfl

/-- C8: `Pop` and `MultiPop` fail with `BadKey` unless the key splits on
`/` into exactly two parts, and `Confirm` fails with `BadKey` unless it
splits into exactly three parts whose third parses as an unsigned
decimal. -/
theorem routing_malformed_key_badKey (u : UnitedQueue) (s : Store)
    (key : String) (n : Nat) (now : Int) :
    ((splitSep '/' key).length ≠ 2 → (u.Pop key now s).1 = some .badKey) ∧
    ((splitSep '/' key).length ≠ 2 →
      (u.MultiPop key n now s).1 = some .badKey) ∧
    ((splitSep '/' key).length ≠ 3 → (u.Confirm key).1 = some .badKey) ∧
    (∀ a b c, splitSep '/' key = [a, b, c] → parseUint c = none →
      (u.Confirm key).1 = some .badKey) := by
  refine ⟨?_, ?_, ?_, ?_⟩
  · intro h
    simp only [UnitedQueue.Pop]
    cases hsp : splitSep '/' key with
    | nil => rfl
    | cons a t1 =>
      cases t1 with
      | nil => rfl
      | cons b t2 =>
        cases t2 with
        | nil => exact absurd (by rw [hsp]; rfl) h
        | cons c t3 => rfl
  · intro h
    simp only [UnitedQueue.MultiPop]
    cases hsp : splitSep '/' key with
    | nil => rfl
    | cons a t1 =>
      cases t1 with
      | nil => rfl
      | cons b t2 =>
        cases t2 with
        | nil => exact absurd (by rw [hsp]; rfl) h
        | cons c t3 => rfl
  · intro h
    simp only [UnitedQueue.Confirm]
    cases hsp : splitSep '/' key with
    | nil => rfl
    | cons a t1 =>
      cases t1 with
      | nil => rfl
      | cons b t2 =>
        cases t2 with
        | nil => rfl
        | cons c t3 =>
          cases t3 with
          | nil => exact absurd (by rw [hsp]; rfl) h
          | cons d t4 => rfl
  · intro a b c hsp hpu
    simp only [UnitedQueue.Confirm]
    rw [hsp]
    dsimp only
    rw [hpu]

/-- C8 witness: `Pop "T"`, `MultiPop "T"`, `Confirm "T/L"` and
`Confirm "T/L/abc"` all fail with `BadKey`. -/
theorem routing_malformed_key_badKey_witness :
    ((UnitedQueue.Pop ⟨[]⟩ "T" 0 ⟨[], []⟩).1 = some .badKey) ∧
    ((UnitedQueue.MultiPop ⟨[]⟩ "T" 3 0 ⟨[], []⟩).1 = some .badKey) ∧
    ((UnitedQueue.Confirm ⟨[]⟩ "T/L").1 = some .badKey) ∧
    ((UnitedQueue.Confirm ⟨[]⟩ "T/L/abc").1 = some .badKey) :=
  ⟨(routing_malformed_key_badKey ⟨[]⟩ ⟨[], []⟩ "T" 3 0).1 (by decide),
   (routing_malformed_key_badKey ⟨[]⟩ ⟨[], []⟩ "T" 3 0).2.1 (by decide),
   (routing_malformed_key_badKey ⟨[]⟩ ⟨[], []⟩ "T/L" 3 0).2.2.1 (by decide),
   (routing_malformed_key_badKey ⟨[]⟩ ⟨[], []⟩ "T/L/abc" 3 0).2.2.2
     "T" "L" "abc" (by decide) (by decide)⟩

/-- C9: startup recovery never fails the broker: `loadQueue` always
returns success; an absent broker catalog yields empty fresh state; and
when the catalog lists topics, a topic is loaded iff its catalog and both
anchors load, each failing topic being skipped independently of the
rest. -/
theorem loadQueue_never_fails (s : Store) :
    (∃ ts, loadQueue s = .ok ts) ∧
    (s.get StorageKeyWord = none → loadQueue s = .ok []) ∧
    (∀ names, s.get StorageKeyWord = some (.queueCat names) →
      loadQueue s = .ok (loadTopics s names) ∧
      ∀ n t, ((n, t) ∈ loadTopics s names ↔
        n ∈ names ∧ loadOneTopic s n = some t)) := by
  refine ⟨?_, ?_, ?_⟩
  · unfold loadQueue
    cases hv : s.get StorageKeyWord with
    | none => exact ⟨[], rfl⟩
    | some v => cases v <;> exact ⟨_, rfl⟩
  · intro h
    unfold loadQueue
    rw [h]
  · intro names h
    constructor
    · unfold loadQueue
      rw [h]
    · intro n t
      exact mem_loadTopics s names n t

/-- C9 witness: with topics `A` (complete) and `B` (head anchor missing)
listed, the broker starts, loads `A` and skips `B`. -/
theorem loadQueue_never_fails_witness :
    loadQueue ⟨[("UnitedQueueKey", .queueCat ["A", "B"]),
        ("A", .topicCat []), ("A:head", .anchor 0), ("A:tail", .anchor 2),
        ("B", .topicCat []), ("B:tail", .anchor 1)], []⟩
      = .ok (loadTopics ⟨[("UnitedQueueKey", .queueCat ["A", "B"]),
        ("A", .topicCat []), ("A:head", .anchor 0), ("A:tail", .anchor 2),
        ("B", .topicCat []), ("B:tail", .anchor 1)], []⟩ ["A", "B"]) ∧
    ("A", (⟨"A", [], 0, "A:head", 2, "A:tail"⟩ : Topic))
      ∈ loadTopics ⟨[("UnitedQueueKey", .queueCat ["A", "B"]),
        ("A", .topicCat []), ("A:head", .anchor 0), ("A:tail", .anchor 2),
        ("B", .topicCat []), ("B:tail", .anchor 1)], []⟩ ["A", "B"] ∧
    ∀ t, ("B", t) ∉ loadTopics ⟨[("UnitedQueueKey", .queueCat ["A", "B"]),
        ("A", .topicCat []), ("A:head", .anchor 0), ("A:tail", .anchor 2),
        ("B", .topicCat []), ("B:tail", .anchor 1)], []⟩ ["A", "B"] := by
  have h := (loadQueue_never_fails ⟨[("UnitedQueueKey", .queueCat ["A", "B"]),
        ("A", .topicCat []), ("A:head", .anchor 0), ("A:tail", .anchor 2),
        ("B", .topicCat []), ("B:tail", .anchor 1)], []⟩).2.2 ["A", "B"]
    (by decide)
  refine ⟨h.1, ?_, ?_⟩
  · exact (h.2 "A" _).mpr ⟨by decide, by decide⟩
  · intro t ht
    obtain ⟨_, hl⟩ := (h.2 "B" t).mp ht
    have hB : loadOneTopic ⟨[("UnitedQueueKey", .queueCat ["A", "B"]),
        ("A", .topicCat []), ("A:head", .anchor 0), ("A:tail", .anchor 2),
        ("B", .topicCat []), ("B:tail", .anchor 1)], []⟩ "B" = none := by
      decide
    rw [hB] at hl
    exact Option.noConfusion hl

/-- C10: a successful `createLine` stores a line whose `head` and `ihead`
equal the topic's head at creation time, with empty in-flight sequence and
empty imap, and whose first pop delivers the message at the topic's head
(the oldest retained message). -/
theorem createLine_fresh (t : Topic) (name : String) (recycle : Int)
    (s : Store) (hok : (t.createLine name recycle s).1 = none) :
    ∃ l, ((t.createLine name recycle s).2.1.lines).lookup name = some l ∧
      l.head = t.head ∧ l.ihead = t.head ∧
      l.inflight = [] ∧ l.imap = [] ∧
      (∀ now p (s2 : Store), t.head < t.tail →
        s2.get (acatui t.name ":" t.head) = some (.payload p) →
        (l.pop now t.name t.tail s2).1 = none ∧
        (l.pop now t.name t.tail s2).2.2 = some (t.head, p)) := by
  simp only [Topic.createLine] at hok ⊢
  by_cases hdup : (t.lines.lookup name).isSome
  · rw [if_pos hdup] at hok
    exact absurd hok (by simp)
  · rw [if_neg hdup] at hok ⊢
    cases hnl : t.newLine name recycle s with
    | error e =>
      rw [hnl] at hok
      exact absurd hok (by simp)
    | ok r =>
      cases r with
      | mk l s1 =>
        rw [hnl] at hok
        dsimp only at hok ⊢
        have hl := newLine_ok hnl
        cases hexp : Topic.exportTopic
            { t with lines := t.lines ++ [(name, l)] } s1 with
        | error e =>
          rw [hexp] at hok
          exact absurd hok (by simp)
        | ok s2 =>
          dsimp only
          refine ⟨l, ?_, ?_, ?_, ?_, ?_, ?_⟩
          · exact lookup_append_of_none t.lines name l
              (Option.not_isSome_iff_eq_none.mp hdup)
          · rw [hl]
          · rw [hl]
          · rw [hl]
          · rw [hl]
          · intro now p s2b hlt hget
            rw [hl]
            unfold Line.pop
            dsimp only
            rw [if_neg (by exact Nat.ne_of_lt hlt)]
            unfold getData
            rw [hget]
            dsimp only
            by_cases hr : recycle > 0
            · rw [if_pos hr]
              exact ⟨rfl, rfl⟩
            · rw [if_neg hr]
              exact ⟨rfl, rfl⟩

/-- C10 witness: creating line `L` on a topic with head 1 and tail 3
yields a line at head 1 with empty in-flight state whose first pop
delivers message 1. -/
theorem createLine_fresh_witness :
    ∃ l, ((Topic.createLine ⟨"T", [], 1, "T:head", 3, "T:tail"⟩ "L" 0
        ⟨[], []⟩).2.1.lines).lookup "L" = some l ∧
      l.head = 1 ∧ l.ihead = 1 ∧ l.inflight = [] ∧ l.imap = [] ∧
      (∀ now p (s2 : Store), 1 < 3 →
        s2.get (acatui "T" ":" 1) = some (.payload p) →
        (l.pop now "T" 3 s2).1 = none ∧
        (l.pop now "T" 3 s2).2.2 = some (1, p)) :=
  createLine_fresh ⟨"T", [], 1, "T:head", 3, "T:tail"⟩ "L" 0 ⟨[], []⟩
    (by decide)

end UQ
